import Mathlib

/-!
Verification of the checkov-vscode extension (src/extension.ts and
src/configuration.ts) against its natural-language specification.

Strings are embedded as `List Char` so that every operation is a
structurally recursive Lean function mirroring the JavaScript string
primitives the source uses (trim, toLowerCase, includes, split).
Modules that are imported by the source but absent from src/
(node-semver, lodash debounce, checkovRunner, diagnostics, utils) are
modelled from their documented behaviour / the specification, and each
such definition says so in its doc comment.
-/

namespace CheckovVscode

/-! ### JavaScript string primitives -/

/-- Characters treated as whitespace by the JavaScript trim()
(WhiteSpace and LineTerminator code points; the common ones suffice for
the configuration strings handled here). -/
def isJsWhitespace (c : Char) : Bool :=
  c.toNat = 32 || c.toNat = 9 || c.toNat = 10 || c.toNat = 13 || c.toNat = 11 ||
  c.toNat = 12 || c.toNat = 0xa0 || c.toNat = 0xfeff

/-- JavaScript String.prototype.trim: drop whitespace at both ends. -/
def jsTrim (s : List Char) : List Char :=
  ((s.dropWhile isJsWhitespace).reverse.dropWhile isJsWhitespace).reverse

/-- JavaScript String.prototype.toLowerCase restricted to ASCII letters,
which is all it does on the version / configuration strings in play. -/
def toLowerChar (c : Char) : Char :=
  if 65 ≤ c.toNat && c.toNat ≤ 90 then Char.ofNat (c.toNat + 32) else c

/-- JavaScript String.prototype.toLowerCase applied pointwise. -/
def toLowerAscii (s : List Char) : List Char := s.map toLowerChar

/-- Split a list at every occurrence of the character c (the behaviour
of JavaScript String.prototype.split with a single-character
separator). Always returns at least one (possibly empty) piece. -/
def splitOnChar (c : Char) : List Char → List (List Char)
  | [] => [[]]
  | x :: xs =>
    let r := splitOnChar c xs
    if x = c then [] :: r
    else
      match r with
      | [] => [[x]]
      | y :: ys => (x :: y) :: ys

/-- Join pieces with the character c between them (inverse direction of
splitOnChar; JavaScript Array.prototype.join). -/
def joinWithChar (c : Char) : List (List Char) → List Char
  | [] => []
  | [p] => p
  | p :: ps => p ++ c :: joinWithChar c ps

/-! ### Decimal notation

The source formats version numbers back into strings (template strings
in node-semver's format()). These two functions give decimal notation
and its evaluation; natDecimalAux is fuel-indexed so it is structurally
recursive and kernel-evaluable. -/

/-- Digit character for a value below ten. -/
def digitOfNat : Nat → Char
  | 0 => '0' | 1 => '1' | 2 => '2' | 3 => '3' | 4 => '4'
  | 5 => '5' | 6 => '6' | 7 => '7' | 8 => '8' | _ => '9'

/-- Numeric value of a digit character. -/
def digitVal (c : Char) : Nat := c.toNat - 48

/-- Decimal digits of n, most significant first; fuel bounds the
recursion depth (any fuel above n is enough). -/
def natDecimalAux : Nat → Nat → List Char
  | 0, _ => []
  | fuel + 1, n =>
    if n < 10 then [digitOfNat n]
    else natDecimalAux fuel (n / 10) ++ [digitOfNat (n % 10)]

/-- Decimal notation of a natural number. -/
def natDecimal (n : Nat) : List Char := natDecimalAux (n + 1) n

/-- Value of a digit string (JavaScript's + coercion on a numeric
string). -/
def decToNat (s : List Char) : Nat := s.foldl (fun a c => 10 * a + digitVal c) 0

/-- Digit character test. -/
def isDigitCh (c : Char) : Bool := 48 ≤ c.toNat && c.toNat ≤ 57

/-! ### node-semver (dependency of src/configuration.ts, not vendored
in the repository; modelled from the semver 2.0.0 grammar that the
library implements: optional leading v, three dot-separated numeric
identifiers without leading zeros, optional dash-introduced prerelease
identifiers, optional plus-introduced build identifiers, a 256
character cap and a Number.MAX_SAFE_INTEGER cap on the numeric parts). -/

/-- Parsed semantic version. -/
structure SemVer where
  major : Nat
  minor : Nat
  patch : Nat
  prerelease : List (List Char)
  build : List (List Char)
deriving DecidableEq, Repr

/-- Identifier characters allowed in prerelease / build identifiers. -/
def isIdentCh (c : Char) : Bool :=
  isDigitCh c || (97 ≤ c.toNat && c.toNat ≤ 122) || (65 ≤ c.toNat && c.toNat ≤ 90) ||
  c.toNat = 45

/-- Numeric identifier: nonempty, digits only, no leading zero. -/
def isNumericId (s : List Char) : Bool :=
  !s.isEmpty && s.all isDigitCh && (s = ['0'] || s.head? ≠ some '0')

/-- Prerelease identifier: alphanumeric/hyphen, nonempty; an
all-digits identifier must have no leading zero. -/
def isPrereleaseId (s : List Char) : Bool :=
  !s.isEmpty && s.all isIdentCh && (!s.all isDigitCh || isNumericId s)

/-- Build identifier: alphanumeric/hyphen, nonempty. -/
def isBuildId (s : List Char) : Bool := !s.isEmpty && s.all isIdentCh

/-- Number.MAX_SAFE_INTEGER, the cap node-semver puts on each numeric
version part. -/
def maxSafeInteger : Nat := 2 ^ 53 - 1

/-- Parse the major.minor.patch core. -/
def parseMainVersion (s : List Char) : Option (Nat × Nat × Nat) :=
  match splitOnChar '.' s with
  | [a, b, c] =>
    if isNumericId a && isNumericId b && isNumericId c then
      let x := decToNat a
      let y := decToNat b
      let z := decToNat c
      if x ≤ maxSafeInteger && y ≤ maxSafeInteger && z ≤ maxSafeInteger then
        some (x, y, z)
      else none
    else none
  | _ => none

/-- Parse main version plus an optional prerelease part (everything
after the first dash belongs to the prerelease). -/
def parseMainPre (s : List Char) (build : List (List Char)) : Option SemVer :=
  match splitOnChar '-' s with
  | [] => none
  | m :: rest =>
    match parseMainVersion m with
    | none => none
    | some (x, y, z) =>
      if rest.isEmpty then some ⟨x, y, z, [], build⟩
      else
        let pre := splitOnChar '.' (joinWithChar '-' rest)
        if pre.all isPrereleaseId then some ⟨x, y, z, pre, build⟩ else none

/-- Strip one optional leading letter v (the strict semver grammar
allows a single one). -/
def stripLeadV : List Char → List Char
  | [] => []
  | c :: rest => if c = 'v' then rest else c :: rest

/-- Modelled from node-semver: parse (strict options), as used by
semver.valid / semver.clean / range testing in configuration.ts. -/
def parseSemVer (s : List Char) : Option SemVer :=
  if s.length > 256 then none
  else
    let s := stripLeadV s
    match splitOnChar '+' s with
    | [mp] => parseMainPre mp []
    | [mp, b] =>
      let bs := splitOnChar '.' b
      if bs.all isBuildId then parseMainPre mp bs else none
    | _ => none

/-- Modelled from node-semver: format(), the canonical version string
(build metadata is not part of it). -/
def formatSemVer (v : SemVer) : List Char :=
  natDecimal v.major ++ '.' :: (natDecimal v.minor ++ '.' :: (natDecimal v.patch ++
    (if v.prerelease.isEmpty then [] else '-' :: joinWithChar '.' v.prerelease)))

/-- Modelled from node-semver: clean(v) = parse(v.trim().replace(re
for leading = and v, empty)) rendered with format(). -/
def stripEqV : List Char → List Char
  | [] => []
  | c :: rest => if c = '=' || c = 'v' then stripEqV rest else c :: rest

/-- Modelled from node-semver: semver.clean. -/
def semverClean (s : List Char) : Option (List Char) :=
  (parseSemVer (stripEqV (jsTrim s))).map formatSemVer

/-- Comparison of the major.minor.patch triples. -/
def mainGe (a : Nat × Nat × Nat) (b : Nat × Nat × Nat) : Bool :=
  a.1 > b.1 || (a.1 = b.1 && (a.2.1 > b.2.1 || (a.2.1 = b.2.1 && a.2.2 ≥ b.2.2)))

/-- Modelled from node-semver: satisfies(version, range) for the range
that is greater-or-equal to a plain (prerelease-free) version: a
version carrying a prerelease never satisfies such a range, otherwise
the main triples are compared. An unparsable version yields false. -/
def semverSatisfiesGe (s : List Char) (minv : Nat × Nat × Nat) : Bool :=
  match parseSemVer s with
  | none => false
  | some v => v.prerelease.isEmpty && mainGe (v.major, v.minor, v.patch) minv

/-! ### src/configuration.ts -/

/-- Values readable from the checkov section of the workspace
configuration (none = the setting is absent). -/
structure WorkspaceConfig where
  token : Option (List Char)
  certificate : Option (List Char)
  useBridgecrewIDs : Option Bool
  checkovVersion : Option (List Char)
  disableErrorMessage : Option Bool
  prismaURL : Option (List Char)

/-- JavaScript falsiness of an optional string: undefined and the
empty string are falsy. -/
def jsFalsyStr : Option (List Char) → Bool
  | none => true
  | some s => s.isEmpty

/-- Source: const minCheckovVersion = '2.0.0'. -/
def minCheckovVersion : List Char := "2.0.0".data

/-- Main triple of minCheckovVersion. -/
def minCheckovMain : Nat × Nat × Nat := (2, 0, 0)

/-- Source: configuration.get('checkovVersion', 'latest').trim().toLowerCase(),
the normalized requested version getCheckovVersion works on. -/
def requestedCheckovVersion (cfg : WorkspaceConfig) : List Char :=
  toLowerAscii (jsTrim (cfg.checkovVersion.getD "latest".data))

/-- Source: getCheckovVersion in src/configuration.ts. Reads and
normalizes the requested version; empty / latest map to the sentinel;
otherwise semver.valid, semver.clean and a satisfies check against
>=2.0.0 gate the cleaned version, and every failing gate throws
(modelled as Except.error carrying the message text). -/
def getCheckovVersion (cfg : WorkspaceConfig) : Except (List Char) (List Char) :=
  let checkovVersion := requestedCheckovVersion cfg
  if checkovVersion = [] || checkovVersion = "latest".data then .ok "latest".data
  else
    match parseSemVer checkovVersion with
    | none => .error ("Invalid checkov version: ".data ++ checkovVersion)
    | some _ =>
      match semverClean checkovVersion with
      | none => .error ("Invalid checkov version: ".data ++ checkovVersion)
      | some cleaned =>
        if semverSatisfiesGe checkovVersion minCheckovMain then .ok cleaned
        else
          .error ("Invalid checkov version: ".data ++ checkovVersion ++
            " (must be >=".data ++ minCheckovVersion ++ ")".data)

/-- Source: getPrismaUrl in src/configuration.ts. -/
def getPrismaUrl (cfg : WorkspaceConfig) : Option (List Char) := cfg.prismaURL

/-- Source: getPathToCert in src/configuration.ts. -/
def getPathToCert (cfg : WorkspaceConfig) : Option (List Char) := cfg.certificate

/-- Source: getUseBcIds in src/configuration.ts. -/
def getUseBcIds (cfg : WorkspaceConfig) : Bool := cfg.useBridgecrewIDs.getD false

/-- Source: shouldDisableErrorMessage in src/configuration.ts. -/
def shouldDisableErrorMessage (cfg : WorkspaceConfig) : Bool :=
  cfg.disableErrorMessage.getD false

/-- User-visible side effects of assureTokenSet: the logger.error call,
the showErrorMessage popup and the missing-configuration status-bar
state. -/
structure AssureTokenEffects where
  errorLogged : Bool
  errorMessageShown : Bool
  missingConfigStatusBar : Bool
deriving DecidableEq, Repr

/-- Source: assureTokenSet in src/configuration.ts. The token-type
classifier getTokenType lives in src/utils.ts, which is not part of
src/, so the predicate (is the token a Prisma token) is taken as an
input. Note the function returns the configured token unconditionally;
the branches only produce user-visible effects. -/
def assureTokenSet (tokenIsPrisma : List Char → Bool) (cfg : WorkspaceConfig) :
    Option (List Char) × AssureTokenEffects :=
  let token := cfg.token
  if jsFalsyStr token then
    (token, ⟨true, true, true⟩)
  else if tokenIsPrisma (token.getD []) && jsFalsyStr (getPrismaUrl cfg) then
    (token, ⟨true, true, true⟩)
  else
    (token, ⟨false, false, false⟩)

/-! ### src/utils.ts (not in src/) -/

/-- Does the list end with the given pattern. -/
def endsWithSeg (pat s : List Char) : Bool :=
  s.reverse.take pat.length = pat.reverse

/-- Modelled from the spec: isSupportedFileType lives in src/utils.ts,
which is absent from src/. The spec (sections 1 and 6) scopes scanning
to infrastructure-as-code files - Terraform, CloudFormation / YAML /
JSON templates and Dockerfiles - matching the code-action glob in
extension.ts (tf, yml, yaml, json, Dockerfile). The source sometimes
passes a second argument controlling a user message; it does not
change the predicate and is not modelled. -/
def isSupportedFileType (fileName : List Char) : Bool :=
  endsWithSeg ".tf".data fileName || endsWithSeg ".yml".data fileName ||
  endsWithSeg ".yaml".data fileName || endsWithSeg ".json".data fileName ||
  endsWithSeg "Dockerfile".data fileName

/-! ### src/extension.ts: the RUN_FILE_SCAN_COMMAND handler -/

/-- Observable effects of one execution of the RUN_FILE_SCAN_COMMAND
handler (extension.ts lines 60-78): the not-ready warning popup,
whether resetCancelTokenSource ran, the assureTokenSet effects,
whether getCheckovVersion threw (aborting the rest of the handler),
whether REMOVE_DIAGNOSTICS_COMMAND was executed, and whether the
debounced runScan (the scanner invocation path) was called. -/
structure ScanCommandEffects where
  notReadyWarningShown : Bool
  cancelTokenReset : Bool
  tokenEffects : AssureTokenEffects
  versionThrew : Bool
  diagnosticsCleared : Bool
  scanInvoked : Bool
deriving DecidableEq, Repr

/-- Source: the RUN_FILE_SCAN_COMMAND handler in extension.ts.
Inputs: whether extensionReady is set, the workspace configuration,
the token-type classifier (from the absent utils.ts), the file name of
the active editor's document (none = no active editor) and the
optional explicit fileUri argument. -/
def runFileScanCommand (tokenIsPrisma : List Char → Bool) (ready : Bool)
    (cfg : WorkspaceConfig) (activeFileName : Option (List Char))
    (fileUri : Option (List Char)) : ScanCommandEffects :=
  if !ready then
    ⟨true, false, ⟨false, false, false⟩, false, false, false⟩
  else
    let (token, teff) := assureTokenSet tokenIsPrisma cfg
    match getCheckovVersion cfg with
    | .error _ => ⟨false, true, teff, true, false, false⟩
    | .ok _ =>
      if fileUri.isNone && activeFileName.isSome &&
          !isSupportedFileType (activeFileName.getD []) then
        ⟨false, true, teff, false, true, false⟩
      else if !jsFalsyStr token && activeFileName.isSome then
        ⟨false, true, teff, false, true, true⟩
      else
        ⟨false, true, teff, false, true, false⟩

/-! ### src/extension.ts: editor event handlers -/

/-- One onDidChangeTextDocument event: the uri and file name of the
changed document, the text of each content change, and the full
document text after the change. -/
structure TextDocChangeEvent where
  docUri : List Char
  fileName : List Char
  contentChanges : List (List Char)
  fullText : List Char
deriving DecidableEq, Repr

/-- Effects of the onDidChangeTextDocument handler: whether
REMOVE_DIAGNOSTICS_COMMAND was executed and whether a scan was
requested (the temp file written and RUN_FILE_SCAN_COMMAND issued on
it). -/
structure EditHandlerEffects where
  diagnosticsCleared : Bool
  scanRequested : Bool
deriving DecidableEq, Repr

/-- Source: the onDidChangeTextDocument handler (extension.ts lines
104-126). Returns without scanning unless the extension is ready, the
changed document is the active one (a mismatch only matters when an
active editor exists), its type is supported, and some content change
includes a newline; only then is the document text saved to the temp
file and RUN_FILE_SCAN_COMMAND executed on it. -/
def onDidChangeTextDocument (ready : Bool) (activeUri : Option (List Char))
    (ev : TextDocChangeEvent) : EditHandlerEffects :=
  if !ready then ⟨false, false⟩
  else if (match activeUri with
            | some u => ev.docUri ≠ u
            | none => false) || !isSupportedFileType ev.fileName then ⟨false, false⟩
  else if !ev.contentChanges.any (fun t => t.contains '\n') then ⟨true, false⟩
  else ⟨true, true⟩

/-- Source: the onDidSaveTextDocument handler (extension.ts lines
127-135). True when RUN_FILE_SCAN_COMMAND is executed for the save
event: extension ready, the saved document is the active one (when an
active editor exists) and its type is supported. -/
def onDidSaveTextDocument (ready : Bool) (activeUri : Option (List Char))
    (savedUri savedFileName : List Char) : Bool :=
  if !ready then false
  else if (match activeUri with
            | some u => savedUri ≠ u
            | none => false) || !isSupportedFileType savedFileName then false
  else true

/-- Source: the onDidChangeActiveTextEditor handler (extension.ts
lines 136-144). The new editor's document file name (none = focus left
every editor). True when RUN_FILE_SCAN_COMMAND is executed; an editor
with an unsupported document instead resets the cancel token source
and the status bar. -/
def onDidChangeActiveTextEditor (ready : Bool)
    (newFileName : Option (List Char)) : Bool :=
  if !ready then false
  else
    match newFileName with
    | some n => if !isSupportedFileType n then false else true
    | none => true

/-! ### The debounce wrapper around runScan -/

/-- Modelled from the spec (section 4.1 and the glossary entry for
debounce) and the documented trailing-edge behaviour of the lodash
debounce that wraps runScan (extension.ts line 153: wait 300 ms, empty
options, so no leading-edge call): every call re-arms a timer and
stores its arguments; when the wait elapses with no further call, the
wrapped function runs once with the last stored arguments. Input:
calls as chronologically ordered (time, argument) pairs; output: the
performed executions as (time, argument) pairs. A call arriving
within wait of its predecessor replaces the pending execution. -/
def debounceExecs (wait : Nat) : List (Nat × α) → List (Nat × α)
  | [] => []
  | (t, a) :: rest =>
    match rest with
    | [] => [(t + wait, a)]
    | (t2, _) :: _ =>
      if t2 ≤ t + wait then debounceExecs wait rest
      else (t + wait, a) :: debounceExecs wait rest

/-- Content of the shared temp file at the given time: the last write
at or before it (each edit-triggered request writes the full document
text to the one temp file before issuing the scan command). -/
def lastWriteAt (calls : List (Nat × List Char)) (time : Nat) :
    Option (List Char) :=
  ((calls.filter fun c => c.1 ≤ time).getLast?).map Prod.snd

/-- The edit-triggered scan pipeline of extension.ts: each
edit-triggered request (a call carrying the document text it wrote to
the temp file) goes through the 300 ms debounced runScan, and a
dispatched execution scans the temp file as it stands at execution
time. -/
def dispatchedEditScans (calls : List (Nat × List Char)) :
    List (Nat × Option (List Char)) :=
  (debounceExecs 300 calls).map fun e => (e.1, lastWriteAt calls e.1)

/-- Timed behaviour of a sequence of RUN_FILE_SCAN_COMMAND requests:
the times at which resetCancelTokenSource ran (synchronously inside
the handler) and the times at which a scan actually started (the
executions of the debounced runScan). Each request carries its
optional fileUri argument. -/
structure PipelineResult where
  cancelTimes : List Nat
  scanTimes : List Nat
deriving DecidableEq, Repr

/-- Source: every trigger path of extension.ts (edit, save, focus)
funnels into vscode.commands.executeCommand(RUN_FILE_SCAN_COMMAND),
whose handler resets the cancel token synchronously and calls the one
debounced runScan of line 153. -/
def scanPipeline (tokenIsPrisma : List Char → Bool) (ready : Bool)
    (cfg : WorkspaceConfig) (activeFileName : Option (List Char))
    (reqs : List (Nat × Option (List Char))) : PipelineResult :=
  ⟨(reqs.filter fun r =>
      (runFileScanCommand tokenIsPrisma ready cfg activeFileName r.2).cancelTokenReset).map
        Prod.fst,
    (debounceExecs 300 (reqs.filter fun r =>
      (runFileScanCommand tokenIsPrisma ready cfg activeFileName r.2).scanInvoked)).map
        Prod.fst⟩

/-! ### Scan results and diagnostic application -/

/-- Modelled from the spec (section 3, Finding): one entry of
results.failedChecks in the scanner response; the carrying types live
in the absent checkovRunner module. -/
structure FailedCheck where
  ruleId : List Char
  filePath : List Char
  startLine : Nat
  endLine : Nat
  severity : List Char
deriving DecidableEq, Repr

/-- Editor-facing diagnostic record (spec section 3), carrying the
fields its ordering is specified by. -/
structure Diagnostic where
  filePath : List Char
  startLine : Nat
  ruleId : List Char
deriving DecidableEq, Repr

/-- Ordering key of a diagnostic: the lexicographic triple
(filePath, startLine, ruleId). -/
def diagKey (d : Diagnostic) : Lex (List Char × Lex (Nat × List Char)) :=
  toLex (d.filePath, toLex (d.startLine, d.ruleId))

/-- Boolean comparison by diagKey, used for sorting. -/
def diagLe (a b : Diagnostic) : Bool := decide (diagKey a ≤ diagKey b)

/-- Modelled from the spec: applyDiagnostics lives in
src/diagnostics.ts, which is absent from src/. Per the Result Mapper
contract (section 4.4) and the round-trip property (section 8), each
failed check becomes one diagnostic and the sequence replacing the
document's diagnostic set is ordered by (filePath, startLine, ruleId)
ascending. -/
def applyDiagnostics (failedChecks : List FailedCheck) : List Diagnostic :=
  (failedChecks.map fun f => ⟨f.filePath, f.startLine, f.ruleId⟩).mergeSort diagLe

/-! ### src/extension.ts: runScan -/

/-- Status-bar states the extension can set. -/
inductive StatusBarState
  | syncing
  | errorState
  | passed
  | ready
  | missingConfig
deriving DecidableEq, Repr

/-- Outcome of the awaited runCheckovScan call (checkovRunner.ts is
not in src/): either a response whose results.failedChecks is the
given list, or a raised error (cancellation raises are distinguished
at the catch site by the cancellation token, which is a separate
input here). -/
inductive ScanRunOutcome
  | response (failedChecks : List FailedCheck)
  | raised
deriving DecidableEq, Repr

/-- Observable effects of one execution of the debounced runScan body:
the chronological status-bar calls, the diagnostic set passed to
applyDiagnostics (none = applyDiagnostics never called), whether the
result was saved to workspace state, whether logger.error ran, and
whether the error popup (showContactUsDetails) was shown. -/
structure RunScanEffects where
  statusBarCalls : List StatusBarState
  appliedDiagnostics : Option (List Diagnostic)
  resultSaved : Bool
  errorLogged : Bool
  errorMessageShown : Bool
deriving DecidableEq, Repr

/-- Source: the runScan body (extension.ts lines 153-178). Inputs:
whether checkovInstallation is non-null, the outcome of the awaited
runCheckovScan, whether this scan's cancellation token was cancelled
(read in the catch block), and the disableErrorMessage setting. The
success continuation (save, apply, status bar) runs synchronously
after the await; the catch block returns silently when the token was
cancelled. -/
def runScan (installed : Bool) (outcome : ScanRunOutcome)
    (cancelRequested : Bool) (disableErrMsg : Bool) : RunScanEffects :=
  if !installed then ⟨[.syncing], none, false, true, false⟩
  else
    match outcome with
    | .response fcs =>
      ⟨[.syncing, if fcs.length > 0 then .errorState else .passed],
        some (applyDiagnostics fcs), true, false, false⟩
    | .raised =>
      if cancelRequested then ⟨[.syncing], none, false, false, false⟩
      else ⟨[.syncing, .errorState], none, false, true, !disableErrMsg⟩

/-! ### Cancellation generations

A small-step model of the interplay between RUN_FILE_SCAN_COMMAND and
in-flight scans. Each execution of resetCancelTokenSource (extension.ts
lines 30-34, called at line 66 on every scan request) cancels the
current CancellationTokenSource and replaces it with a fresh one;
generations number these sources, and a token of generation g is
cancelled exactly when g is below the current generation. JavaScript's
event loop makes the code between two awaits atomic, so the
continuation of runScan after the awaited runCheckovScan (which
applies the diagnostics) runs as one step. -/

/-- Events of the scheduler: a request is one execution of the
RUN_FILE_SCAN_COMMAND handler (resetCancelTokenSource, then the
debounced runScan is armed holding the fresh token); finish g applied
is the resumption of the scan holding the generation-g token, with
applied = true when runCheckovScan produced a result and the
continuation applied diagnostics synchronously, and applied = false
when it raised (cancellation or failure) so nothing was applied. -/
inductive SchedEvent
  | request
  | finish (g : Nat) (applied : Bool)
deriving DecidableEq, Repr

/-- Chronological log of the interesting occurrences. -/
inductive LogEntry
  | requested (g : Nat)
  | applied (g : Nat)
deriving DecidableEq, Repr

/-- Scheduler state: the current token generation and the log. -/
structure SchedState where
  currentGen : Nat
  log : List LogEntry
deriving DecidableEq, Repr

/-- The token of generation g is invalidated (superseded) in state s. -/
def tokenCancelled (s : SchedState) (g : Nat) : Prop := g < s.currentGen

/-- One scheduler step. A request bumps the generation (cancelling
every older token). A finish with applied = true is only possible
while the scan's token is still current: this is the Scanner Invoker
contract modelled from the spec (section 4.3) - checkovRunner.ts is
absent from src/ and must raise rather than return a result once its
cancellation token is cancelled; extension.ts applies diagnostics
synchronously upon a returned result. A raising finish is always
possible and leaves no log entry (the catch path applies nothing). -/
def schedStep (s : SchedState) : SchedEvent → Option SchedState
  | .request =>
    some ⟨s.currentGen + 1, s.log ++ [.requested (s.currentGen + 1)]⟩
  | .finish g applied =>
    if applied then
      if g = s.currentGen then some ⟨s.currentGen, s.log ++ [.applied g]⟩
      else none
    else some s

/-- Run the scheduler over an event list. -/
def schedExec : SchedState → List SchedEvent → Option SchedState
  | s, [] => some s
  | s, e :: es =>
    match schedStep s e with
    | none => none
    | some s2 => schedExec s2 es

/-- Initial scheduler state. -/
def schedInit : SchedState := ⟨0, []⟩

/-- Scheduler invariant: every requested generation is at most the
current one, and no generation's diagnostics are applied after a
higher generation has been requested (chronologically later in the
log). -/
def SchedInv (s : SchedState) : Prop :=
  (∀ g, LogEntry.requested g ∈ s.log → g ≤ s.currentGen) ∧
  (∀ l1 g' l2, s.log = l1 ++ LogEntry.requested g' :: l2 →
    ∀ g, LogEntry.applied g ∈ l2 → g' ≤ g)

/-- Timed edit events turned into calls of the debounced runScan: the
events whose handler run requested a scan each contribute a call at
the event's time carrying the document text the handler wrote to the
temp file. -/
def editScanCalls (ready : Bool) (activeUri : Option (List Char))
    (evs : List (Nat × TextDocChangeEvent)) : List (Nat × List Char) :=
  (evs.filter fun e =>
    (onDidChangeTextDocument ready activeUri e.2).scanRequested).map
      fun e => (e.1, e.2.fullText)

/-- A configuration with a plain token and everything else absent
(concrete test input). -/
def plainTokenConfig : WorkspaceConfig :=
  ⟨some "tok".data, none, none, none, none, none⟩

/-- A configuration holding a token that the classifier recognizes as
a Prisma token, with no prismaURL configured (concrete test input). -/
def prismaNoUrlConfig : WorkspaceConfig :=
  ⟨some "key::secret".data, none, none, none, none, none⟩

/-- A newline-inserting change event on a Terraform document (concrete
test input). -/
def editEvA : TextDocChangeEvent :=
  ⟨"file:a.tf".data, "a.tf".data, ["\n".data], "x\n".data⟩

/-- A second newline-inserting change event on the same document
(concrete test input). -/
def editEvB : TextDocChangeEvent :=
  ⟨"file:a.tf".data, "a.tf".data, ["y\n".data], "x\ny\n".data⟩

/-- Claim C4: an edit-triggered scan fires only when the content
change includes a newline insertion - for every document-change event
on the active, supported document whose content changes contain no
newline, the onDidChangeTextDocument handler requests no scan. -/
theorem editScanNeedsNewline (ready : Bool) (activeUri : Option (List Char))
    (ev : TextDocChangeEvent)
    (hactive : activeUri = some ev.docUri)
    (hsupp : isSupportedFileType ev.fileName = true)
    (hnonl : ∀ t ∈ ev.contentChanges, '\n' ∉ t) :
    (onDidChangeTextDocument ready activeUri ev).scanRequested = false := by
  subst hactive
  cases ready <;> simp [onDidChangeTextDocument, hsupp]
  rw [if_pos hnonl]

/-- Witness for editScanNeedsNewline: a ready extension, an active
supported Terraform document and a change without a newline request no
scan. -/
theorem editScanNeedsNewline_witness :
    (some "file:a.tf".data = some (TextDocChangeEvent.mk "file:a.tf".data
        "a.tf".data [" x".data] "resource x".data).docUri) ∧
    (onDidChangeTextDocument true (some "file:a.tf".data)
      (TextDocChangeEvent.mk "file:a.tf".data "a.tf".data [" x".data]
        "resource x".data)).scanRequested = false :=
  ⟨rfl, editScanNeedsNewline true _ _ rfl (by decide) (by decide)⟩

/-- Claim C5: a scan requested while the extension is not ready is
rejected with the distinct user-visible warning popup, and the scanner
invocation path (the debounced runScan) is never reached - for every
configuration, classifier, active editor and fileUri argument. -/
theorem scanRejectedWhenNotReady (tokenIsPrisma : List Char → Bool)
    (cfg : WorkspaceConfig) (activeFileName fileUri : Option (List Char)) :
    runFileScanCommand tokenIsPrisma false cfg activeFileName fileUri =
      ⟨true, false, ⟨false, false, false⟩, false, false, false⟩ := rfl

/-- Claim C7, divergence: with a token classified as a Prisma token
and no Prisma URL configured, assureTokenSet reports the
missing-configuration status-bar state and the error message, yet the
handler still reaches the scanner invocation path (scanInvoked =
true), because assureTokenSet returns the token unconditionally and
the handler only tests its truthiness. The claim (and the spec's
short-circuit requirement) say such a request must stop before the
invoker. -/
theorem prismaTokenWithoutUrlStillScans :
    runFileScanCommand (fun _ => true) true prismaNoUrlConfig
      (some "main.tf".data) none =
      ⟨false, true, ⟨true, true, true⟩, false, true, true⟩ := by decide

/-- Claim C9: when the awaited scan raised and this scan's
cancellation token was cancelled, runScan exits silently: no
diagnostics applied, no result saved, nothing logged as a failure, no
error popup and no status-bar change beyond the syncing state set when
the scan started. -/
theorem cancelledScanExitsSilently (disableErrMsg : Bool) :
    runScan true .raised true disableErrMsg =
      ⟨[.syncing], none, false, false, false⟩ := rfl

/-- Claim C2, counterexample: two save-triggered requests (both passing
the onDidSaveTextDocument guards) at times 0 and 100 produce a single
scan at time 400 - the requests are coalesced by the 300 ms debounce
around runScan instead of firing immediately at their request times. -/
theorem saveScanNotImmediate_counterexample :
    onDidSaveTextDocument true (some "file:main.tf".data) "file:main.tf".data
        "main.tf".data = true ∧
    scanPipeline (fun _ => false) true plainTokenConfig (some "main.tf".data)
        [(0, none), (100, none)] = ⟨[0, 100], [400]⟩ ∧
    ¬ ([(400 : Nat)] = [0, 100]) := by
  refine ⟨by decide, by decide, by decide⟩

/-- The first component assureTokenSet returns is always the
configured token (it is returned on every branch). -/
theorem assureTokenSet_fst (tokenIsPrisma : List Char → Bool)
    (cfg : WorkspaceConfig) : (assureTokenSet tokenIsPrisma cfg).1 = cfg.token := by
  unfold assureTokenSet
  simp only []
  split <;> [skip; split] <;> rfl

/-- Claim C2, amended: save- and focus-triggered requests (like every
request reaching RUN_FILE_SCAN_COMMAND) cancel the prior in-flight
scan synchronously at request time, but the scan itself goes through
the one 300 ms debounced runScan shared with edit-triggered requests -
it does not fire immediately. With the extension ready, a truthy
token, a valid version setting and an active supported document, the
cancellations happen exactly at the request times while the scans are
exactly the debounced executions. -/
theorem saveFocusScansDebouncedButCancelImmediate
    (tokenIsPrisma : List Char → Bool) (cfg : WorkspaceConfig) (name : List Char)
    (reqs : List (Nat × Option (List Char)))
    (htok : jsFalsyStr cfg.token = false)
    (hver : ∃ v, getCheckovVersion cfg = .ok v)
    (hsupp : isSupportedFileType name = true)
    (hfile : ∀ r ∈ reqs, r.2 = none) :
    scanPipeline tokenIsPrisma true cfg (some name) reqs =
      ⟨reqs.map Prod.fst, (debounceExecs 300 reqs).map Prod.fst⟩ := by
  obtain ⟨v, hv⟩ := hver
  have key : ∀ r ∈ reqs,
      (runFileScanCommand tokenIsPrisma true cfg (some name) r.2).scanInvoked = true ∧
      (runFileScanCommand tokenIsPrisma true cfg (some name) r.2).cancelTokenReset
        = true := by
    intro r hr
    rw [hfile r hr]
    unfold runFileScanCommand
    rw [hv]
    simp [assureTokenSet_fst, hsupp, htok]
  have h1 : reqs.filter (fun r =>
      (runFileScanCommand tokenIsPrisma true cfg (some name) r.2).scanInvoked) = reqs :=
    List.filter_eq_self.mpr fun r hr => (key r hr).1
  have h2 : reqs.filter (fun r =>
      (runFileScanCommand tokenIsPrisma true cfg (some name) r.2).cancelTokenReset)
      = reqs :=
    List.filter_eq_self.mpr fun r hr => (key r hr).2
  rw [scanPipeline, h1, h2]

/-- Witness for saveFocusScansDebouncedButCancelImmediate: two
requests at times 0 and 100 cancel at 0 and 100 but scan once at
400. -/
theorem saveFocusScansDebounced_witness :
    scanPipeline (fun _ => false) true plainTokenConfig (some "main.tf".data)
      [(0, none), (100, none)] = ⟨[0, 100], [400]⟩ :=
  (saveFocusScansDebouncedButCancelImmediate (fun _ => false) plainTokenConfig
    "main.tf".data [(0, none), (100, none)] (by decide)
    ⟨"latest".data, rfl⟩ (by decide) (by decide)).trans (by decide)

/-- Transitivity of the diagnostic ordering. -/
theorem diagLe_trans (a b c : Diagnostic) (hab : diagLe a b = true)
    (hbc : diagLe b c = true) : diagLe a c = true := by
  simp only [diagLe, decide_eq_true_eq] at *
  exact le_trans hab hbc

/-- Totality of the diagnostic ordering. -/
theorem diagLe_total (a b : Diagnostic) : (diagLe a b || diagLe b a) = true := by
  simp only [diagLe, Bool.or_eq_true, decide_eq_true_eq]
  exact le_total (diagKey a) (diagKey b)

/-- Claim C8: a completed scan with zero failed checks applies the
empty diagnostic set and sets the passed status; a result with N
failed checks applies exactly N diagnostics, ordered by
(filePath, startLine, ruleId). -/
theorem scanResultApplication :
    (∀ cancelRequested disableErrMsg : Bool,
      runScan true (.response []) cancelRequested disableErrMsg =
        ⟨[.syncing, .passed], some [], true, false, false⟩) ∧
    (∀ (fcs : List FailedCheck) (cancelRequested disableErrMsg : Bool), ∃ ds,
      (runScan true (.response fcs) cancelRequested disableErrMsg).appliedDiagnostics
          = some ds ∧
      ds.length = fcs.length ∧
      List.Pairwise (fun a b => diagLe a b = true) ds) := by
  constructor
  · intro c d
    simp [runScan, applyDiagnostics, List.mergeSort_nil]
  · intro fcs c d
    refine ⟨applyDiagnostics fcs, rfl, ?_, ?_⟩
    · rw [applyDiagnostics, List.length_mergeSort, List.length_map]
    · exact List.sorted_mergeSort diagLe_trans diagLe_total _

/-- Trailing-edge debounce: a chronological burst of calls whose gaps
stay within the wait window performs exactly one execution, wait after
the last call, carrying the last call's argument. -/
theorem debounceExecs_burst {α : Type} (wait : Nat) :
    ∀ (calls : List (Nat × α)) (t : Nat) (c : α),
      calls.getLast? = some (t, c) →
      List.Chain' (fun a b => b.1 ≤ a.1 + wait) calls →
      debounceExecs wait calls = [(t + wait, c)]
  | [], t, c, h, _ => by simp at h
  | [(t1, a1)], t, c, h, _ => by
    simp only [List.getLast?_singleton, Option.some.injEq, Prod.mk.injEq] at h
    obtain ⟨rfl, rfl⟩ := h
    rfl
  | (t1, a1) :: (t2, a2) :: rest, t, c, h, hch => by
    rw [List.getLast?_cons_cons] at h
    rw [List.chain'_cons] at hch
    have h2 := debounceExecs_burst wait ((t2, a2) :: rest) t c h hch.2
    have hle : t2 ≤ t1 + wait := hch.1
    show (if t2 ≤ t1 + wait then debounceExecs wait ((t2, a2) :: rest)
      else (t1 + wait, a1) :: debounceExecs wait ((t2, a2) :: rest)) = [(t + wait, c)]
    rw [if_pos hle]
    exact h2

/-- In a list whose times are chained nondecreasing, every element's
time is at most the last element's time. -/
theorem mem_time_le_of_getLast {α : Type} :
    ∀ (l : List (Nat × α)) (t : Nat) (c : α),
      l.getLast? = some (t, c) →
      List.Chain' (fun a b => a.1 ≤ b.1) l →
      ∀ x ∈ l, x.1 ≤ t
  | [], _, _, h, _ => by simp at h
  | [(t1, a1)], t, c, h, _ => by
    simp only [List.getLast?_singleton, Option.some.injEq, Prod.mk.injEq] at h
    obtain ⟨rfl, rfl⟩ := h
    intro x hx
    simp only [List.mem_singleton] at hx
    subst hx
    exact le_refl _
  | (t1, a1) :: (t2, a2) :: rest, t, c, h, hch => by
    rw [List.getLast?_cons_cons] at h
    rw [List.chain'_cons] at hch
    have ih := mem_time_le_of_getLast ((t2, a2) :: rest) t c h hch.2
    intro x hx
    rcases List.mem_cons.mp hx with rfl | hx2
    · exact le_trans hch.1 (ih (t2, a2) (List.mem_cons_self _ _))
    · exact ih x hx2

/-- Claim C3: a chronological burst of edit-triggered scan requests on
one document, each arriving within 300 ms of its predecessor, yields
exactly one dispatched scan, 300 ms after the last request, and the
content it scans (the temp file at execution time) is the document
text of the last event. -/
theorem editBurstSingleScan (ready : Bool) (activeUri : Option (List Char))
    (evs : List (Nat × TextDocChangeEvent)) (t : Nat) (ev : TextDocChangeEvent)
    (hlast : evs.getLast? = some (t, ev))
    (hall : ∀ e ∈ evs,
      (onDidChangeTextDocument ready activeUri e.2).scanRequested = true)
    (hchain : List.Chain' (fun a b => a.1 < b.1 ∧ b.1 ≤ a.1 + 300) evs) :
    dispatchedEditScans (editScanCalls ready activeUri evs) =
      [(t + 300, some ev.fullText)] := by
  have hfilter : evs.filter (fun e =>
      (onDidChangeTextDocument ready activeUri e.2).scanRequested) = evs :=
    List.filter_eq_self.mpr hall
  have hcalls : editScanCalls ready activeUri evs =
      evs.map (fun e => (e.1, e.2.fullText)) := by
    rw [editScanCalls, hfilter]
  have hlast2 : (evs.map (fun e => (e.1, e.2.fullText))).getLast? =
      some (t, ev.fullText) := by
    rw [List.getLast?_map, hlast]
    rfl
  have hchain2 : List.Chain' (fun a b => b.1 ≤ a.1 + 300)
      (evs.map (fun e => (e.1, e.2.fullText))) := by
    rw [List.chain'_map]
    exact hchain.imp (fun a b h => h.2)
  have hchainle : List.Chain' (fun a b : Nat × List Char => a.1 ≤ b.1)
      (evs.map (fun e => (e.1, e.2.fullText))) := by
    rw [List.chain'_map]
    exact hchain.imp (fun a b h => le_of_lt h.1)
  have hdeb := debounceExecs_burst 300 _ t ev.fullText hlast2 hchain2
  have hmem := mem_time_le_of_getLast _ t ev.fullText hlast2 hchainle
  rw [dispatchedEditScans, hcalls, hdeb]
  simp only [List.map_cons, List.map_nil]
  have hfil2 : (evs.map (fun e => (e.1, e.2.fullText))).filter
      (fun c => c.1 ≤ t + 300) = evs.map (fun e => (e.1, e.2.fullText)) :=
    List.filter_eq_self.mpr (fun x hx => by
      have hle := hmem x hx
      simp only [decide_eq_true_eq]
      omega)
  rw [lastWriteAt, hfil2, hlast2]
  rfl

/-- Witness for editBurstSingleScan: two newline edits at 0 and 100 ms
dispatch one scan at 400 ms carrying the second event's text. -/
theorem editBurstSingleScan_witness :
    dispatchedEditScans (editScanCalls true (some "file:a.tf".data)
      [(0, editEvA), (100, editEvB)]) = [(400, some "x\ny\n".data)] :=
  (editBurstSingleScan true (some "file:a.tf".data)
    [(0, editEvA), (100, editEvB)] 100 editEvB (by decide) (by decide)
    (by simp [List.chain'_cons, List.chain'_singleton])).trans (by decide)

/-- Splitting a list extended on the right: the split point lies in
the old list or is the new element. -/
theorem snoc_split {α : Type} {l l1 l2 : List α} {x y : α}
    (h : l ++ [x] = l1 ++ y :: l2) :
    (∃ l2', l = l1 ++ y :: l2' ∧ l2 = l2' ++ [x]) ∨
    (l1 = l ∧ y = x ∧ l2 = []) := by
  rcases List.append_eq_append_iff.mp h with ⟨a', ha1, ha2⟩ | ⟨c', hc1, hc2⟩
  · match a', ha1, ha2 with
    | [], ha1, ha2 =>
      simp only [List.nil_append] at ha2
      injection ha2 with hxy hl2
      right
      simp only [List.append_nil] at ha1
      exact ⟨ha1, hxy.symm, hl2.symm⟩
    | z :: a'', ha1, ha2 =>
      injection ha2 with _ htail
      simp at htail
  · match c', hc2 with
    | [], hc2 =>
      right
      simp only [List.nil_append] at hc2
      injection hc2 with hyx hl2
      simp only [List.append_nil] at hc1
      exact ⟨hc1.symm, hyx, hl2⟩
    | y' :: c'', hc2 =>
      left
      simp only [List.cons_append, List.cons.injEq] at hc2
      obtain ⟨rfl, hl2⟩ := hc2
      exact ⟨c'', by rw [hc1], hl2⟩

/-- The scheduler invariant is preserved by every step. -/
theorem schedStep_inv {s s2 : SchedState} {e : SchedEvent}
    (hstep : schedStep s e = some s2) (hinv : SchedInv s) : SchedInv s2 := by
  obtain ⟨h1, h2⟩ := hinv
  cases e with
  | request =>
    simp only [schedStep, Option.some.injEq] at hstep
    subst hstep
    constructor
    · intro g hg
      simp only [List.mem_append, List.mem_singleton] at hg
      rcases hg with hg | hg
      · exact le_trans (h1 g hg) (Nat.le_succ _)
      · cases hg
        exact le_refl _
    · intro l1 g' l2 hsplit g hgapp
      rcases snoc_split hsplit with ⟨l2', hl, hl2⟩ | ⟨hl1, hy, hl2⟩
      · subst hl2
        simp only [List.mem_append, List.mem_singleton] at hgapp
        rcases hgapp with hgapp | hgapp
        · exact h2 l1 g' l2' hl g hgapp
        · cases hgapp
      · subst hl2
        cases hgapp
  | finish g0 applied =>
    cases applied with
    | false =>
      simp only [schedStep, Bool.false_eq_true, if_false, Option.some.injEq] at hstep
      subst hstep
      exact ⟨h1, h2⟩
    | true =>
      simp only [schedStep, if_true] at hstep
      by_cases hg0 : g0 = s.currentGen
      · rw [if_pos hg0] at hstep
        simp only [Option.some.injEq] at hstep
        subst hstep
        subst hg0
        constructor
        · intro g hg
          simp only [List.mem_append, List.mem_singleton] at hg
          rcases hg with hg | hg
          · exact h1 g hg
          · cases hg
        · intro l1 g' l2 hsplit g hgapp
          rcases snoc_split hsplit with ⟨l2', hl, hl2⟩ | ⟨hl1, hy, hl2⟩
          · subst hl2
            simp only [List.mem_append, List.mem_singleton] at hgapp
            rcases hgapp with hgapp | hgapp
            · exact h2 l1 g' l2' hl g hgapp
            · cases hgapp
              exact h1 g' (by rw [hl]; simp)
          · cases hy
      · rw [if_neg hg0] at hstep
        cases hstep

/-- The scheduler invariant is preserved by every run. -/
theorem schedExec_inv : ∀ (evs : List SchedEvent) (s s2 : SchedState),
    schedExec s evs = some s2 → SchedInv s → SchedInv s2
  | [], s, s2, h, hinv => by
    simp only [schedExec, Option.some.injEq] at h
    subst h
    exact hinv
  | e :: es, s, s2, h, hinv => by
    simp only [schedExec] at h
    cases hstep : schedStep s e with
    | none => rw [hstep] at h; cases h
    | some s1 =>
      rw [hstep] at h
      exact schedExec_inv es s1 s2 h (schedStep_inv hstep hinv)

/-- Claim C1: for every reachable scheduler state, (1) every token
generation below a requested generation is invalidated - the request
event runs resetCancelTokenSource before arming its scan, and
schedStep only lets a scan apply diagnostics while its generation is
current, so the earlier token is invalidated before the later scan
can begin; and (2) the log never shows a generation's diagnostics
applied after a higher generation was requested: a superseded scan
never applies diagnostics. Relies on the Scanner Invoker contract
(spec section 4.3) for the absent checkovRunner: a cancelled scan
raises instead of returning a result. -/
theorem noStaleDiagnostics (evs : List SchedEvent) (s : SchedState)
    (h : schedExec schedInit evs = some s) :
    (∀ g, LogEntry.requested g ∈ s.log → ∀ g0, g0 < g → tokenCancelled s g0) ∧
    (∀ l1 g' l2, s.log = l1 ++ LogEntry.requested g' :: l2 →
      ∀ g, LogEntry.applied g ∈ l2 → g' ≤ g) := by
  have hinit : SchedInv schedInit := by
    constructor
    · intro g hg
      simp [schedInit] at hg
    · intro l1 g' l2 hsplit
      exact absurd hsplit (by simp [schedInit])
  have hinv := schedExec_inv evs schedInit s h hinit
  exact ⟨fun g hg g0 hlt => lt_of_lt_of_le hlt (hinv.1 g hg), hinv.2⟩

/-- Witness for noStaleDiagnostics: the trace request, raise of scan
1, request, apply of scan 2 is executable and its log splits at the
first request with the application of generation 2 after it. -/
theorem noStaleDiagnostics_witness : (1 : Nat) ≤ 2 :=
  (noStaleDiagnostics [.request, .finish 1 false, .request, .finish 2 true]
    ⟨2, [.requested 1, .requested 2, .applied 2]⟩ rfl).2
    [] 1 [.requested 2, .applied 2] rfl 2 (by decide)



/-- Char.ofNat inverts toNat below the surrogate range. -/
theorem charToNat_ofNat {m : Nat} (h : m < 0xd800) : (Char.ofNat m).toNat = m := by
  unfold Char.ofNat
  split
  · rfl
  · next hv => exact absurd (Or.inl h) hv

/-- The fuel of natDecimalAux is irrelevant once above the argument. -/
theorem natDecimalAux_fuel : ∀ (f1 f2 n : Nat), n < f1 → n < f2 →
    natDecimalAux f1 n = natDecimalAux f2 n
  | f1 + 1, f2 + 1, n, h1, h2 => by
    simp only [natDecimalAux]
    by_cases hn : n < 10
    · simp [hn]
    · simp only [hn, if_false]
      have hd : n / 10 < n := Nat.div_lt_self (by omega) (by omega)
      rw [natDecimalAux_fuel f1 f2 (n / 10) (by omega) (by omega)]

/-- Decimal notation of a single digit. -/
theorem natDecimal_lt {n : Nat} (h : n < 10) : natDecimal n = [digitOfNat n] := by
  simp [natDecimal, natDecimalAux, h]

/-- Decimal notation unfolds from the last digit. -/
theorem natDecimal_ge {n : Nat} (h : 10 ≤ n) :
    natDecimal n = natDecimal (n / 10) ++ [digitOfNat (n % 10)] := by
  have hd : n / 10 < n := Nat.div_lt_self (by omega) (by omega)
  show natDecimalAux (n + 1) n = _
  simp only [natDecimalAux, Nat.not_lt.mpr h, if_false]
  rw [natDecimalAux_fuel n (n / 10 + 1) (n / 10) hd (by omega)]
  rfl

/-- digitVal inverts digitOfNat below ten. -/
theorem digitVal_digitOfNat {n : Nat} (h : n < 10) :
    digitVal (digitOfNat n) = n := by
  interval_cases n <;> decide

/-- digitOfNat yields digit characters. -/
theorem isDigitCh_digitOfNat {n : Nat} (h : n < 10) :
    isDigitCh (digitOfNat n) = true := by
  interval_cases n <;> decide

/-- Appending a digit multiplies the value by ten and adds it. -/
theorem decToNat_append_digit (l : List Char) (c : Char) :
    decToNat (l ++ [c]) = 10 * decToNat l + digitVal c := by
  simp [decToNat, List.foldl_append]

/-- Evaluating decimal notation gives the number back. -/
theorem decToNat_natDecimal (n : Nat) : decToNat (natDecimal n) = n := by
  induction n using Nat.strong_induction_on with
  | _ n ih =>
    by_cases h : n < 10
    · rw [natDecimal_lt h]
      show 10 * 0 + digitVal (digitOfNat n) = n
      rw [digitVal_digitOfNat h]
      omega
    · have h10 : 10 ≤ n := by omega
      have hd : n / 10 < n := Nat.div_lt_self (by omega) (by omega)
      rw [natDecimal_ge h10, decToNat_append_digit, ih (n / 10) hd,
        digitVal_digitOfNat (Nat.mod_lt n (by omega))]
      omega

/-- Decimal notation is never empty. -/
theorem natDecimal_ne_nil (n : Nat) : natDecimal n ≠ [] := by
  by_cases h : n < 10
  · rw [natDecimal_lt h]; simp
  · rw [natDecimal_ge (by omega)]; simp

/-- Decimal notation consists of digit characters. -/
theorem natDecimal_all_digits (n : Nat) :
    (natDecimal n).all isDigitCh = true := by
  induction n using Nat.strong_induction_on with
  | _ n ih =>
    by_cases h : n < 10
    · rw [natDecimal_lt h]
      simp [isDigitCh_digitOfNat h]
    · have hd : n / 10 < n := Nat.div_lt_self (by omega) (by omega)
      rw [natDecimal_ge (by omega)]
      simp only [List.all_append, Bool.and_eq_true]
      refine ⟨ih (n / 10) hd, ?_⟩
      simp [isDigitCh_digitOfNat (Nat.mod_lt n (by omega))]

/-- Every character of a decimal notation is a digit. -/
theorem mem_natDecimal_digit {n : Nat} {c : Char} (h : c ∈ natDecimal n) :
    isDigitCh c = true := by
  have := natDecimal_all_digits n
  rw [List.all_eq_true] at this
  exact this c h

/-- Decimal notation of a positive number has no leading zero. -/
theorem natDecimal_head_ne_zero {n : Nat} (h : 1 ≤ n) :
    (natDecimal n).head? ≠ some '0' := by
  induction n using Nat.strong_induction_on with
  | _ n ih =>
    by_cases hlt : n < 10
    · rw [natDecimal_lt hlt]
      interval_cases n <;> decide
    · have hd : n / 10 < n := Nat.div_lt_self (by omega) (by omega)
      rw [natDecimal_ge (by omega)]
      rw [List.head?_append_of_ne_nil _ (natDecimal_ne_nil _)]
      exact ih (n / 10) hd (by omega)

/-- Decimal notation is a valid semver numeric identifier. -/
theorem isNumericId_natDecimal (n : Nat) : isNumericId (natDecimal n) = true := by
  simp only [isNumericId, Bool.and_eq_true, Bool.or_eq_true]
  refine ⟨⟨by simp [natDecimal_ne_nil n], natDecimal_all_digits n⟩, ?_⟩
  by_cases h : n = 0
  · subst h
    left
    decide
  · right
    simp only [ne_eq, decide_eq_true_eq]
    exact natDecimal_head_ne_zero (by omega)

/-- Digit-count bound for decimal notation. -/
theorem natDecimal_length_le : ∀ (k n : Nat), n < 10 ^ k → 1 ≤ k →
    (natDecimal n).length ≤ k := by
  intro k
  induction k with
  | zero => omega
  | succ k ih =>
    intro n hn _
    by_cases h : n < 10
    · rw [natDecimal_lt h]
      simp
    · have hk : 1 ≤ k := by
        by_contra hk0
        have : k = 0 := by omega
        subst this
        simp at hn
        omega
      rw [natDecimal_ge (by omega)]
      rw [List.length_append]
      have : n / 10 < 10 ^ k := by
        rw [Nat.div_lt_iff_lt_mul (by omega)]
        calc n < 10 ^ (k + 1) := hn
        _ = 10 ^ k * 10 := by ring
      have := ih (n / 10) this hk
      simp only [List.length_singleton]
      omega



/-- Splitting at an absent character returns the list whole. -/
theorem splitOnChar_not_mem {c : Char} : ∀ {a : List Char}, c ∉ a →
    splitOnChar c a = [a]
  | [], _ => rfl
  | x :: xs, h => by
    have hx : ¬ x = c := fun he => h (by simp [he])
    have hxs : c ∉ xs := fun hm => h (by simp [hm])
    simp only [splitOnChar, splitOnChar_not_mem hxs, if_neg hx]

/-- Splitting peels off a separator-free prefix. -/
theorem splitOnChar_append {c : Char} : ∀ {a : List Char} (b : List Char),
    c ∉ a → splitOnChar c (a ++ c :: b) = a :: splitOnChar c b
  | [], b, _ => by simp [splitOnChar]
  | x :: xs, b, h => by
    have hx : ¬ x = c := fun he => h (by simp [he])
    have hxs : c ∉ xs := fun hm => h (by simp [hm])
    show splitOnChar c (x :: (xs ++ c :: b)) = _
    simp only [splitOnChar, if_neg hx]
    rw [splitOnChar_append b hxs]

/-- Splitting always returns at least one piece. -/
theorem splitOnChar_ne_nil (c : Char) : ∀ (s : List Char), splitOnChar c s ≠ []
  | [] => by simp [splitOnChar]
  | x :: xs => by
    simp only [splitOnChar]
    by_cases hx : x = c
    · simp [hx]
    · simp only [if_neg hx]
      cases hr : splitOnChar c xs with
      | nil => simp
      | cons y ys => simp

/-- The first nonempty piece starts where the list starts. -/
theorem splitOnChar_head {c : Char} : ∀ {s m : List Char} {rest : List (List Char)},
    splitOnChar c s = m :: rest → m ≠ [] → s.head? = m.head?
  | [], m, rest, h, hm => by
    simp only [splitOnChar, List.cons.injEq] at h
    exact absurd h.1.symm hm
  | x :: xs, m, rest, h, hm => by
    simp only [splitOnChar] at h
    by_cases hx : x = c
    · rw [if_pos hx] at h
      simp only [List.cons.injEq] at h
      exact absurd h.1.symm hm
    · rw [if_neg hx] at h
      cases hr : splitOnChar c xs with
      | nil => exact absurd hr (splitOnChar_ne_nil c xs)
      | cons y ys =>
        rw [hr] at h
        simp only [List.cons.injEq] at h
        rw [← h.1]
        rfl



/-- Number.MAX_SAFE_INTEGER has at most sixteen digits. -/
theorem maxSafe_lt_pow : maxSafeInteger < 10 ^ 16 := by decide

/-- The main-version parser inverts decimal formatting. -/
theorem parseMainVersion_core {x y z : Nat} (hx : x ≤ maxSafeInteger)
    (hy : y ≤ maxSafeInteger) (hz : z ≤ maxSafeInteger) :
    parseMainVersion (natDecimal x ++ '.' :: (natDecimal y ++ '.' :: natDecimal z)) =
      some (x, y, z) := by
  have hdx : '.' ∉ natDecimal x := fun hm => by
    have := mem_natDecimal_digit hm
    exact absurd this (by decide)
  have hdy : '.' ∉ natDecimal y := fun hm => by
    have := mem_natDecimal_digit hm
    exact absurd this (by decide)
  have hdz : '.' ∉ natDecimal z := fun hm => by
    have := mem_natDecimal_digit hm
    exact absurd this (by decide)
  simp only [parseMainVersion]
  rw [splitOnChar_append _ hdx, splitOnChar_append _ hdy,
    splitOnChar_not_mem hdz]
  simp only [isNumericId_natDecimal, Bool.and_self, if_true, decToNat_natDecimal]
  simp [hx, hy, hz]

/-- Characters of a formatted core version are digits or dots. -/
theorem coreMem {x y z : Nat} {ch : Char}
    (hm : ch ∈ natDecimal x ++ '.' :: (natDecimal y ++ '.' :: natDecimal z)) :
    isDigitCh ch = true ∨ ch = '.' := by
  rcases List.mem_append.mp hm with h1 | h2
  · exact Or.inl (mem_natDecimal_digit h1)
  · rcases List.mem_cons.mp h2 with rfl | h3
    · exact Or.inr rfl
    · rcases List.mem_append.mp h3 with h4 | h5
      · exact Or.inl (mem_natDecimal_digit h4)
      · rcases List.mem_cons.mp h5 with rfl | h6
        · exact Or.inr rfl
        · exact Or.inl (mem_natDecimal_digit h6)

/-- The semver parser inverts formatting of a plain version. -/
theorem parseSemVer_core {x y z : Nat} (hx : x ≤ maxSafeInteger)
    (hy : y ≤ maxSafeInteger) (hz : z ≤ maxSafeInteger) :
    parseSemVer (natDecimal x ++ '.' :: (natDecimal y ++ '.' :: natDecimal z)) =
      some ⟨x, y, z, [], []⟩ := by
  have hplus : '+' ∉ (natDecimal x ++ '.' :: (natDecimal y ++ '.' :: natDecimal z)) :=
    fun hm => by rcases coreMem hm with h | h <;> exact absurd h (by decide)
  have hminus : '-' ∉ (natDecimal x ++ '.' :: (natDecimal y ++ '.' :: natDecimal z)) :=
    fun hm => by rcases coreMem hm with h | h <;> exact absurd h (by decide)
  have hlx := natDecimal_length_le 16 x (by have := maxSafe_lt_pow; omega) (by omega)
  have hly := natDecimal_length_le 16 y (by have := maxSafe_lt_pow; omega) (by omega)
  have hlz := natDecimal_length_le 16 z (by have := maxSafe_lt_pow; omega) (by omega)
  have hlen : ¬ ((natDecimal x ++ '.' :: (natDecimal y ++ '.' :: natDecimal z)).length
      > 256) := by
    simp only [List.length_append, List.length_cons]
    omega
  obtain ⟨d, tl, hcons⟩ := List.exists_cons_of_ne_nil (natDecimal_ne_nil x)
  have hd : isDigitCh d = true := mem_natDecimal_digit (by rw [hcons]; simp)
  have hdv : ¬ d = 'v' := fun he => by
    rw [he] at hd
    exact absurd hd (by decide)
  have hstrip : stripLeadV (natDecimal x ++ '.' :: (natDecimal y ++ '.' ::
      natDecimal z)) = natDecimal x ++ '.' :: (natDecimal y ++ '.' :: natDecimal z) := by
    rw [hcons, List.cons_append]
    simp only [stripLeadV, if_neg hdv]
  simp only [parseSemVer]
  rw [if_neg hlen, hstrip, splitOnChar_not_mem hplus]
  show parseMainPre (natDecimal x ++ '.' :: (natDecimal y ++ '.' :: natDecimal z))
    [] = some ⟨x, y, z, [], []⟩
  simp only [parseMainPre]
  rw [splitOnChar_not_mem hminus]
  simp only [parseMainVersion_core hx hy hz, List.isEmpty_nil, if_true]

/-- Formatting a prerelease-free version is just the dotted core. -/
theorem formatSemVer_core (v : SemVer) (h : v.prerelease = []) :
    formatSemVer v =
      natDecimal v.major ++ '.' :: (natDecimal v.minor ++ '.' :: natDecimal v.patch) := by
  simp [formatSemVer, h]



/-- A numeric identifier starts with a digit. -/
theorem isNumericId_head {a : List Char} (h : isNumericId a = true) :
    ∃ d tl, a = d :: tl ∧ isDigitCh d = true := by
  simp only [isNumericId, Bool.and_eq_true] at h
  obtain ⟨⟨hne, hall⟩, _⟩ := h
  cases a with
  | nil => simp at hne
  | cons d tl =>
    refine ⟨d, tl, rfl, ?_⟩
    rw [List.all_eq_true] at hall
    exact hall d (by simp)

/-- A parsed main version starts with a digit and respects the caps. -/
theorem parseMainVersion_struct {m : List Char} {xyz : Nat × Nat × Nat}
    (h : parseMainVersion m = some xyz) :
    (∃ d tl, m = d :: tl ∧ isDigitCh d = true) ∧
    xyz.1 ≤ maxSafeInteger ∧ xyz.2.1 ≤ maxSafeInteger ∧
    xyz.2.2 ≤ maxSafeInteger := by
  simp only [parseMainVersion] at h
  split at h
  · next a b c heq =>
    split at h
    · next hnum =>
      split at h
      · next hbound =>
        simp only [Option.some.injEq] at h
        subst h
        simp only [Bool.and_eq_true, decide_eq_true_eq] at hbound hnum
        refine ⟨?_, hbound.1.1, hbound.1.2, hbound.2⟩
        obtain ⟨d, tl, ha, hd⟩ := isNumericId_head hnum.1.1
        have hane : a ≠ [] := by rw [ha]; simp
        have := splitOnChar_head heq hane
        rw [ha] at this
        cases m with
        | nil => simp at this
        | cons c0 m' =>
          simp only [List.head?_cons, Option.some.injEq] at this
          exact ⟨c0, m', rfl, this ▸ hd⟩
      · exact Option.noConfusion h
    · exact Option.noConfusion h
  · exact Option.noConfusion h

/-- A parsed main+prerelease part starts with a digit and respects the caps. -/
theorem parseMainPre_struct {mp : List Char} {build : List (List Char)}
    {sv : SemVer} (h : parseMainPre mp build = some sv) :
    (∃ d tl, mp = d :: tl ∧ isDigitCh d = true) ∧
    sv.major ≤ maxSafeInteger ∧ sv.minor ≤ maxSafeInteger ∧
    sv.patch ≤ maxSafeInteger := by
  simp only [parseMainPre] at h
  split at h
  · exact Option.noConfusion h
  · next m rest heq =>
    split at h
    · exact Option.noConfusion h
    · next x y z hpv =>
      have ⟨⟨d, tl, hm, hd⟩, hbx, hby, hbz⟩ := parseMainVersion_struct hpv
      have hmne : m ≠ [] := by rw [hm]; simp
      have hhead := splitOnChar_head heq hmne
      have hmp : ∃ tl2, mp = d :: tl2 := by
        rw [hm] at hhead
        cases mp with
        | nil => simp at hhead
        | cons c0 mp' =>
          simp only [List.head?_cons, Option.some.injEq] at hhead
          exact ⟨mp', by rw [hhead]⟩
      obtain ⟨tl2, hmp⟩ := hmp
      refine ⟨⟨d, tl2, hmp, hd⟩, ?_⟩
      split at h
      · simp only [Option.some.injEq] at h
        subst h
        exact ⟨hbx, hby, hbz⟩
      · split at h
        · simp only [Option.some.injEq] at h
          subst h
          exact ⟨hbx, hby, hbz⟩
        · exact Option.noConfusion h

/-- After the optional leading v, a parsable version starts with a digit, and its numeric parts respect Number.MAX_SAFE_INTEGER. -/
theorem parseSemVer_struct {s : List Char} {sv : SemVer}
    (h : parseSemVer s = some sv) :
    (∃ d tl, stripLeadV s = d :: tl ∧ isDigitCh d = true) ∧
    sv.major ≤ maxSafeInteger ∧ sv.minor ≤ maxSafeInteger ∧
    sv.patch ≤ maxSafeInteger := by
  simp only [parseSemVer] at h
  split at h
  · exact Option.noConfusion h
  · split at h
    · next mp heq =>
      have := parseMainPre_struct h
      obtain ⟨⟨d, tl, hmp, hd⟩, hb⟩ := this
      have hmpne : mp ≠ [] := by rw [hmp]; simp
      have hhead := splitOnChar_head heq hmpne
      rw [hmp] at hhead
      refine ⟨?_, hb⟩
      cases hu : stripLeadV s with
      | nil => rw [hu] at hhead; simp at hhead
      | cons c0 u' =>
        rw [hu] at hhead
        simp only [List.head?_cons, Option.some.injEq] at hhead
        exact ⟨c0, u', rfl, hhead ▸ hd⟩
    · next mp b heq =>
      split at h
      · have := parseMainPre_struct h
        obtain ⟨⟨d, tl, hmp, hd⟩, hb⟩ := this
        have hmpne : mp ≠ [] := by rw [hmp]; simp
        have hhead := splitOnChar_head heq hmpne
        rw [hmp] at hhead
        refine ⟨?_, hb⟩
        cases hu : stripLeadV s with
        | nil => rw [hu] at hhead; simp at hhead
        | cons c0 u' =>
          rw [hu] at hhead
          simp only [List.head?_cons, Option.some.injEq] at hhead
          exact ⟨c0, u', rfl, hhead ▸ hd⟩
      · exact Option.noConfusion h
    · exact Option.noConfusion h



/-- stripLeadV keeps a digit-headed list whole. -/
theorem stripLeadV_of_digit {d : Char} {tl : List Char} (hd : isDigitCh d = true) :
    stripLeadV (d :: tl) = d :: tl := by
  have hv : ¬ d = 'v' := fun he => by
    rw [he] at hd
    exact absurd hd (by decide)
  simp [stripLeadV, hv]

/-- stripLeadV never lengthens its input. -/
theorem stripLeadV_length_le (s : List Char) :
    (stripLeadV s).length ≤ s.length := by
  cases s with
  | nil => simp [stripLeadV]
  | cons c rest =>
    simp only [stripLeadV]
    split <;> simp

/-- Parsing is stable under removing the optional leading v. -/
theorem parseSemVer_stripLeadV {s : List Char} {sv : SemVer}
    (h : parseSemVer s = some sv) : parseSemVer (stripLeadV s) = some sv := by
  obtain ⟨⟨d, tl, hu, hd⟩, _⟩ := parseSemVer_struct h
  by_cases hl : s.length > 256
  · rw [parseSemVer, if_pos hl] at h
    exact Option.noConfusion h
  · rw [parseSemVer, if_neg hl] at h
    have hl2 : ¬ ((stripLeadV s).length > 256) := by
      have := stripLeadV_length_le s
      omega
    rw [parseSemVer, if_neg hl2]
    have hss : stripLeadV (stripLeadV s) = stripLeadV s := by
      rw [hu, stripLeadV_of_digit hd]
    rw [hss]
    exact h

/-- On a parsable version the clean() prefix strip removes exactly the optional leading v. -/
theorem stripEqV_parse {s : List Char} {sv : SemVer}
    (h : parseSemVer s = some sv) : stripEqV s = stripLeadV s := by
  obtain ⟨⟨d, tl, hu, hd⟩, _⟩ := parseSemVer_struct h
  have hde : ¬ d = '=' := fun he => by
    rw [he] at hd
    exact absurd hd (by decide)
  have hdv : ¬ d = 'v' := fun he => by
    rw [he] at hd
    exact absurd hd (by decide)
  cases s with
  | nil => simp [stripLeadV] at hu
  | cons c rest =>
    by_cases hv : c = 'v'
    · subst hv
      have hrest : rest = d :: tl := by
        simpa [stripLeadV] using hu
      rw [hrest]
      show stripEqV ('v' :: d :: tl) = stripLeadV ('v' :: d :: tl)
      simp only [stripEqV, stripLeadV]
      simp [hde, hdv]
    · have hs : stripLeadV (c :: rest) = c :: rest := by
        simp [stripLeadV, hv]
      rw [hs] at hu
      injection hu with h1 h2
      subst h1
      subst h2
      rw [hs]
      simp only [stripEqV]
      simp [hde, hdv]



/-- The head surviving dropWhile fails the predicate. -/
theorem head?_dropWhile {α : Type} {p : α → Bool} : ∀ {l : List α} {x : α},
    (l.dropWhile p).head? = some x → p x = false
  | [], x, h => by simp at h
  | a :: tl, x, h => by
    simp only [List.dropWhile] at h
    by_cases hp : p a
    · rw [hp] at h
      exact head?_dropWhile h
    · rw [Bool.not_eq_true] at hp
      rw [hp] at h
      simp only [List.head?_cons, Option.some.injEq] at h
      rw [← h]
      exact hp

/-- dropWhile keeps a list whose head fails the predicate. -/
theorem dropWhile_head_self {α : Type} {p : α → Bool} {l : List α}
    (h : ∀ x, l.head? = some x → p x = false) : l.dropWhile p = l := by
  cases l with
  | nil => rfl
  | cons a tl =>
    simp only [List.dropWhile]
    rw [h a rfl]

/-- dropWhile keeps the last element when it keeps anything. -/
theorem getLast?_dropWhile {α : Type} {p : α → Bool} : ∀ {l : List α},
    l.dropWhile p ≠ [] → (l.dropWhile p).getLast? = l.getLast?
  | [], h => rfl
  | a :: tl, h => by
    simp only [List.dropWhile] at h ⊢
    by_cases hp : p a
    · rw [hp] at h ⊢
      rw [getLast?_dropWhile h]
      cases tl with
      | nil => simp [List.dropWhile] at h
      | cons b tl' => rw [List.getLast?_cons_cons]
    · rw [Bool.not_eq_true] at hp
      rw [hp]

/-- Code point of the lowercased character. -/
theorem charToNat_toLowerChar (c : Char) :
    (toLowerChar c).toNat = if 65 ≤ c.toNat && c.toNat ≤ 90 then c.toNat + 32
      else c.toNat := by
  simp only [toLowerChar]
  split
  · next hrange =>
    simp only [Bool.and_eq_true, decide_eq_true_eq] at hrange
    rw [charToNat_ofNat (by omega)]
  · rfl

/-- Lowercasing never creates whitespace. -/
theorem toLowerChar_not_ws {c : Char} (h : isJsWhitespace c = false) :
    isJsWhitespace (toLowerChar c) = false := by
  have htn := charToNat_toLowerChar c
  simp only [isJsWhitespace, Bool.or_eq_false_iff, decide_eq_false_iff_not] at h ⊢
  by_cases hrange : 65 ≤ c.toNat && c.toNat ≤ 90
  · rw [if_pos hrange] at htn
    simp only [Bool.and_eq_true, decide_eq_true_eq] at hrange
    rw [htn]
    omega
  · rw [if_neg hrange] at htn
    rw [htn]
    exact h

/-- A trimmed-then-lowercased string is already trimmed. -/
theorem jsTrim_toLower (s : List Char) :
    jsTrim (toLowerAscii (jsTrim s)) = toLowerAscii (jsTrim s) := by
  simp only [jsTrim, toLowerAscii]
  set A := s.dropWhile isJsWhitespace with hA
  set C := A.reverse.dropWhile isJsWhitespace with hC
  cases hCc : C with
  | nil => simp
  | cons c0 C' =>
    have hAne : A ≠ [] := by
      intro hAnil
      rw [hAnil] at hC
      simp [hC] at hCc
    obtain ⟨a0, A', hAc⟩ := List.exists_cons_of_ne_nil hAne
    have ha0 : isJsWhitespace a0 = false := by
      apply head?_dropWhile (l := s)
      rw [← hA, hAc]
      rfl
    have hc0 : isJsWhitespace c0 = false := by
      apply head?_dropWhile (l := A.reverse)
      rw [← hC, hCc]
      rfl
    have hlast : C.getLast? = some a0 := by
      rw [hC, getLast?_dropWhile (by rw [← hC, hCc]; simp), List.getLast?_reverse,
        hAc]
      rfl
    have hheadT : (C.reverse.map toLowerChar).head? = some (toLowerChar a0) := by
      rw [List.head?_map, List.head?_reverse, hlast]
      rfl
    have hstep1 : (C.reverse.map toLowerChar).dropWhile isJsWhitespace =
        C.reverse.map toLowerChar := by
      apply dropWhile_head_self
      intro x hx
      rw [hheadT] at hx
      simp only [Option.some.injEq] at hx
      rw [← hx]
      exact toLowerChar_not_ws ha0
    have hstep2 : (C.reverse.map toLowerChar).reverse.dropWhile isJsWhitespace =
        (C.reverse.map toLowerChar).reverse := by
      apply dropWhile_head_self
      intro x hx
      rw [← List.map_reverse, List.reverse_reverse, hCc] at hx
      simp only [List.map_cons, List.head?_cons, Option.some.injEq] at hx
      rw [← hx]
      exact toLowerChar_not_ws hc0
    rw [← hCc, hstep1, hstep2, List.reverse_reverse]



/-- The normalized requested version is already trimmed. -/
theorem jsTrim_requested (cfg : WorkspaceConfig) :
    jsTrim (requestedCheckovVersion cfg) = requestedCheckovVersion cfg :=
  jsTrim_toLower (cfg.checkovVersion.getD "latest".data)

/-- On a parsable normalized version, semver.clean returns the canonical format of the parse. -/
theorem semverClean_requested {cfg : WorkspaceConfig} {sv : SemVer}
    (hp : parseSemVer (requestedCheckovVersion cfg) = some sv) :
    semverClean (requestedCheckovVersion cfg) = some (formatSemVer sv) := by
  rw [semverClean, jsTrim_requested, stripEqV_parse hp, parseSemVer_stripLeadV hp]
  rfl

/-- A normalized version that parses and satisfies the minimum-version range makes getCheckovVersion return its canonical cleaned form. -/
theorem getCheckovVersion_clean (cfg : WorkspaceConfig) (sv : SemVer)
    (hp : parseSemVer (requestedCheckovVersion cfg) = some sv)
    (hs : semverSatisfiesGe (requestedCheckovVersion cfg) minCheckovMain = true) :
    getCheckovVersion cfg = .ok (formatSemVer sv) := by
  have hne : requestedCheckovVersion cfg ≠ [] := by
    intro h0
    rw [h0, show parseSemVer [] = (none : Option SemVer) from by decide] at hp
    exact Option.noConfusion hp
  have hnl : requestedCheckovVersion cfg ≠ "latest".data := by
    intro h0
    rw [h0, show parseSemVer "latest".data = (none : Option SemVer) from by decide]
      at hp
    exact Option.noConfusion hp
  simp only [getCheckovVersion]
  rw [if_neg (by simp [hne, hnl])]
  rw [hp, semverClean_requested hp]
  dsimp only
  rw [if_pos hs]



/-- Claim C10: getCheckovVersion normalizes before validating: an
absent setting and the empty string map to the sentinel latest; the
configured string is trimmed and lowercased first (so a padded
mixed-case LaTeSt is the sentinel and a padded V2.1.3 is accepted);
and a valid specific version comes back in semver-cleaned canonical
form - formatSemVer of its parse - rather than as the raw configured
string. -/
theorem getCheckovVersionNormalizes :
    (∀ t c u d p, getCheckovVersion ⟨t, c, u, none, d, p⟩ = .ok "latest".data) ∧
    (∀ t c u d p, getCheckovVersion ⟨t, c, u, some [], d, p⟩ = .ok "latest".data) ∧
    (∀ t c u d p, getCheckovVersion ⟨t, c, u, some "  LaTeSt ".data, d, p⟩ =
      .ok "latest".data) ∧
    (∀ (cfg : WorkspaceConfig) (sv : SemVer),
      parseSemVer (requestedCheckovVersion cfg) = some sv →
      semverSatisfiesGe (requestedCheckovVersion cfg) minCheckovMain = true →
      getCheckovVersion cfg = .ok (formatSemVer sv)) ∧
    (getCheckovVersion ⟨none, none, none, some " V2.1.3 ".data, none, none⟩ =
      .ok "2.1.3".data ∧ "2.1.3".data ≠ " V2.1.3 ".data) := by
  exact ⟨fun t c u d p => rfl, fun t c u d p => rfl,
    fun t c u d p => rfl, getCheckovVersion_clean, rfl, by decide⟩

/-- Witness for getCheckovVersionNormalizes: the configured v2.0.1 validates and comes back cleaned of its v prefix. -/
theorem getCheckovVersionNormalizes_witness :
    getCheckovVersion ⟨none, none, none, some "v2.0.1".data, none, none⟩ =
      .ok (formatSemVer ⟨2, 0, 1, [], []⟩) :=
  getCheckovVersionNormalizes.2.2.2.1
    ⟨none, none, none, some "v2.0.1".data, none, none⟩
    ⟨2, 0, 1, [], []⟩ (by decide) (by decide)




/-- Claim C6: every value getCheckovVersion returns is the sentinel
latest or a string parsing as a prerelease-free semantic version whose
main triple is at least the minimum 2.0.0; and whenever the normalized
requested version is neither empty, nor the sentinel, nor a version
satisfying that minimum, the function throws the validation error. The
embedded function is pure string processing over the configuration: no
network or process work occurs in it (installation and scanning happen
in other commands, only after it returns). -/
theorem getCheckovVersionValidated (cfg : WorkspaceConfig) :
    (∀ v, getCheckovVersion cfg = .ok v →
      v = "latest".data ∨
      ∃ sv, parseSemVer v = some sv ∧ sv.prerelease = [] ∧
        mainGe (sv.major, sv.minor, sv.patch) minCheckovMain = true) ∧
    ((requestedCheckovVersion cfg ≠ [] ∧
      requestedCheckovVersion cfg ≠ "latest".data ∧
      ∀ sv, parseSemVer (requestedCheckovVersion cfg) = some sv →
        ¬ (sv.prerelease = [] ∧
           mainGe (sv.major, sv.minor, sv.patch) minCheckovMain = true)) →
      ∃ e, getCheckovVersion cfg = .error e) := by
  constructor
  · intro v hok
    by_cases hcond : requestedCheckovVersion cfg = [] ∨
        requestedCheckovVersion cfg = "latest".data
    · left
      simp only [getCheckovVersion] at hok
      rw [if_pos (by rcases hcond with h | h <;> simp [h])] at hok
      simp only [Except.ok.injEq] at hok
      exact hok.symm
    · push_neg at hcond
      simp only [getCheckovVersion] at hok
      rw [if_neg (by simp [hcond.1, hcond.2])] at hok
      cases hp : parseSemVer (requestedCheckovVersion cfg) with
      | none =>
        rw [hp] at hok
        exact Except.noConfusion hok
      | some sv1 =>
        rw [hp, semverClean_requested hp] at hok
        dsimp only at hok
        by_cases hs : semverSatisfiesGe (requestedCheckovVersion cfg)
            minCheckovMain = true
        · rw [if_pos hs] at hok
          simp only [Except.ok.injEq] at hok
          subst hok
          right
          have hsat := hs
          rw [semverSatisfiesGe, hp] at hsat
          simp only [Bool.and_eq_true, List.isEmpty_iff] at hsat
          obtain ⟨hpre, hge⟩ := hsat
          obtain ⟨_, hbx, hby, hbz⟩ := parseSemVer_struct hp
          refine ⟨⟨sv1.major, sv1.minor, sv1.patch, [], []⟩, ?_, rfl, hge⟩
          rw [formatSemVer_core sv1 hpre]
          exact parseSemVer_core hbx hby hbz
        · rw [if_neg hs] at hok
          exact Except.noConfusion hok
  · rintro ⟨hne, hnl, hbad⟩
    simp only [getCheckovVersion]
    rw [if_neg (by simp [hne, hnl])]
    cases hp : parseSemVer (requestedCheckovVersion cfg) with
    | none => exact ⟨_, rfl⟩
    | some sv1 =>
      rw [semverClean_requested hp]
      dsimp only
      have hsat : semverSatisfiesGe (requestedCheckovVersion cfg)
          minCheckovMain = false := by
        rw [semverSatisfiesGe, hp]
        have := hbad sv1 hp
        by_cases h1 : sv1.prerelease = []
        · have h2 : mainGe (sv1.major, sv1.minor, sv1.patch) minCheckovMain
              = false := by
            cases hge : mainGe (sv1.major, sv1.minor, sv1.patch) minCheckovMain
            · rfl
            · exact absurd ⟨h1, hge⟩ this
          simp [h2]
        · simp [List.isEmpty_iff, h1]
      rw [hsat]
      refine ⟨"Invalid checkov version: ".data ++ requestedCheckovVersion cfg ++
        " (must be >=".data ++ minCheckovVersion ++ ")".data, ?_⟩
      rw [if_neg (by simp)]

/-- Witness for getCheckovVersionValidated: the configured 1.9.9 is below the minimum and is rejected with an error. -/
theorem getCheckovVersionValidated_witness :
    ∃ e, getCheckovVersion ⟨none, none, none, some "1.9.9".data, none, none⟩ =
      .error e :=
  (getCheckovVersionValidated ⟨none, none, none, some "1.9.9".data, none, none⟩).2
    ⟨by decide, by decide, fun sv h => by
      rw [show parseSemVer (requestedCheckovVersion
        ⟨none, none, none, some "1.9.9".data, none, none⟩) =
        some ⟨1, 9, 9, [], []⟩ from by decide] at h
      obtain rfl := Option.some.inj h
      decide⟩


end CheckovVscode
